import Mathlib

/-!
Verification of the local-copr rebuild planner (`lc-rebuild.py`) and the
chain executor (`lc.py`).  The external collaborators (rpmspec queries,
libdnf5 repository queries, the sandboxed builder) appear as oracle
parameters; everything else is a direct shallow embedding of the Python
control flow.

Python dictionaries are embedded as association lists (first match wins on
lookup, in-place overwrite on repeated insert), `collections.deque` as a
list used FIFO (append at the tail, pop at the head).
-/

namespace LocalCopr

/-- Association-list lookup, mirroring Python `d[k]` / `k in d`
(first matching key wins; inserts keep one entry per key). -/
def lookupA (m : List (String × Nat)) (k : String) : Option Nat :=
  match m with
  | [] => none
  | (k', v) :: rest => if k = k' then some v else lookupA rest k

/-- Association-list insert, mirroring Python `d[k] = v`: overwrite in place
if the key is present, append at the end otherwise (dict insertion order). -/
def insertA (m : List (String × Nat)) (k : String) (v : Nat) : List (String × Nat) :=
  match m with
  | [] => [(k, v)]
  | (k', v') :: rest => if k = k' then (k, v) :: rest else (k', v') :: insertA rest k v

/-- String-valued association lookup (for the capability maps of the planner). -/
def lookupS (m : List (String × String)) (k : String) : Option String :=
  match m with
  | [] => none
  | (k', v) :: rest => if k = k' then some v else lookupS rest k

/-- String-valued association insert (Python `d[k] = v`). -/
def insertS (m : List (String × String)) (k : String) (v : String) : List (String × String) :=
  match m with
  | [] => [(k, v)]
  | (k', v') :: rest => if k = k' then (k, v) :: rest else (k', v') :: insertS rest k v

/-!
## Planner embedding (`lc-rebuild.py`)

External collaborators are oracle fields: `hasSpec` models `_get_spec_path`
finding a `.spec` file, `namesQuery`/`providesQuery` model the two `rpmspec`
invocations of `_scan_local_registry` (returning the non-empty stripped
lines), `brQuery` models the `rpmspec --buildrequires` call of
`get_spec_build_requires`, and `extQuery` models the libdnf5
`PackageQuery.filter_provides` lookup of `resolve_provider` (first matching
package name, `none` both when no package matches and when the query
raises).  `managed` is the `os.listdir` enumeration of the `forges/`
subdirectories, in listing order, and `forgesExists` models
`os.path.exists(self.forges_dir)`.
-/

structure PlannerOracles where
  forgesExists : Bool
  managed : List String
  hasSpec : String → Bool
  namesQuery : String → Except String (List String)
  providesQuery : String → Except String (List String)
  brQuery : String → Except String (List String)
  extQuery : String → Option String

/-- Register a list of capability tokens as provided by `pkg`
(the inner loops of `_scan_local_registry`, `self.local_provides_map[cap] = pkg_id`). -/
def registerCaps (pkg : String) (caps : List String) (m : List (String × String)) :
    List (String × String) :=
  caps.foldl (fun acc cap => insertS acc cap pkg) m

/-- One package of `_scan_local_registry`: skip if no spec file; query the
package names and register them; query the explicit provides and register
them; a `CalledProcessError` from either `rpmspec` call jumps to the
`except` handler, which prints the parse-failure warning for `pkg_id` and
continues with the next package (names already registered stay registered). -/
def scanStep (o : PlannerOracles) (st : List (String × String) × List String) (pkg : String) :
    List (String × String) × List String :=
  if o.hasSpec pkg = false then st
  else
    match o.namesQuery pkg with
    | Except.error _ => (st.1, st.2 ++ [pkg])
    | Except.ok names =>
      match o.providesQuery pkg with
      | Except.error _ => (registerCaps pkg names st.1, st.2 ++ [pkg])
      | Except.ok provs => (registerCaps pkg provs (registerCaps pkg names st.1), st.2)

/-- `_scan_local_registry`: returns the `local_provides_map` together with
the list of packages for which a parse-failure warning was printed. -/
def scanRegistry (o : PlannerOracles) : List (String × String) × List String :=
  if o.forgesExists = false then ([], [])
  else o.managed.foldl (scanStep o) ([], [])

/-- `get_spec_build_requires`: on `CalledProcessError` the `except` clause
swallows the error and the accumulated (empty) set is returned. -/
def specBuildRequires (o : PlannerOracles) (pkg : String) : List String :=
  match o.brQuery pkg with
  | Except.ok reqs => reqs
  | Except.error _ => []

/-- `resolve_provider`: memoization cache first, then the local source map,
then the external binary repositories.  Returns the resolved provider (if
any), the updated `cap_cache`, and whether the external repositories were
queried.  Note the cache is only written on a successful resolution. -/
def resolveProvider (localMap : List (String × String)) (ext : String → Option String)
    (cache : List (String × String)) (capability : String) :
    Option String × List (String × String) × Bool :=
  match lookupS cache capability with
  | some v => (some v, cache, false)
  | none =>
    match lookupS localMap capability with
    | some pid => (some pid, insertS cache capability pid, false)
    | none =>
      match ext capability with
      | some name => (some name, insertS cache capability name, true)
      | none => (none, cache, true)

/-- `dep_graph[provider].add(consumer)`: sets never store duplicates. -/
def addEdge (edges : List (String × String)) (e : String × String) :
    List (String × String) :=
  if e ∈ edges then edges else edges ++ [e]

/-- One requirement of the graph-building loop of `generate_plan`:
discard `rpmlib(`/`config(` tokens, resolve the provider (threading the
cache), and add the edge `provider → consumer` when the provider is a
distinct managed package. -/
def graphStepReq (localMap : List (String × String)) (ext : String → Option String)
    (managed : List String) (consumer : String)
    (st : List (String × String) × List (String × String)) (req : String) :
    List (String × String) × List (String × String) :=
  if req.startsWith "rpmlib(" || req.startsWith "config(" then st
  else
    let r := resolveProvider localMap ext st.2 req
    match r.1 with
    | some provider =>
      if provider ∈ managed ∧ provider ≠ consumer then (addEdge st.1 (provider, consumer), r.2.1)
      else (st.1, r.2.1)
    | none => (st.1, r.2.1)

/-- One consumer package of the graph-building loop (`continue` when no
spec file is present). -/
def graphStepPkg (o : PlannerOracles) (localMap : List (String × String))
    (st : List (String × String) × List (String × String)) (consumer : String) :
    List (String × String) × List (String × String) :=
  if o.hasSpec consumer = false then st
  else (specBuildRequires o consumer).foldl (graphStepReq localMap o.extQuery o.managed consumer) st

/-- The dependency-graph construction of `generate_plan`: a list of edges
`(provider, consumer)` plus the final `cap_cache` (which starts empty in
`__init__` and is threaded through every resolution of the run). -/
def buildGraph (o : PlannerOracles) (localMap : List (String × String)) :
    List (String × String) × List (String × String) :=
  o.managed.foldl (graphStepPkg o localMap) ([], [])

/-- `dep_graph.get(curr, [])`: the consumers recorded for a provider. -/
def consumersOf (edges : List (String × String)) (v : String) : List String :=
  (edges.filter (fun e => e.1 == v)).map Prod.snd

/-- Seeding loop of `generate_plan`: invalid triggers are warned about and
skipped; valid ones get level 0 and are enqueued.  Returns
`(affected, queue, warned)`. -/
def seedStep (managed : List String)
    (st : List (String × Nat) × List (String × Nat) × List String) (pid : String) :
    List (String × Nat) × List (String × Nat) × List String :=
  if pid ∈ managed then (insertA st.1 pid 0, st.2.1 ++ [(pid, 0)], st.2.2)
  else (st.1, st.2.1, st.2.2 ++ [pid])

/-- The whole seeding loop over the requested trigger ids. -/
def seedTriggers (managed triggers : List String) :
    List (String × Nat) × List (String × Nat) × List String :=
  triggers.foldl (seedStep managed) ([], [], [])

/-- Inner relaxation of the BFS: `if consumer not in affected or
affected[consumer] > next_level`, record the smaller level and enqueue. -/
def relaxOne (nextLevel : Nat) (st : List (String × Nat) × List (String × Nat))
    (consumer : String) : List (String × Nat) × List (String × Nat) :=
  match lookupA st.1 consumer with
  | none => (insertA st.1 consumer nextLevel, st.2 ++ [(consumer, nextLevel)])
  | some l =>
    if nextLevel < l then (insertA st.1 consumer nextLevel, st.2 ++ [(consumer, nextLevel)])
    else st

/-- Process every consumer of the dequeued node (the `for consumer in
consumers` loop; the dequeued pair has already been removed from the
queue, appends go to the back of the deque). -/
def relaxAll (adj : String → List String) (curr : String) (level : Nat)
    (st : List (String × Nat) × List (String × Nat)) :
    List (String × Nat) × List (String × Nat) :=
  (adj curr).foldl (relaxOne (level + 1)) st

/-- The `while queue:` loop of `generate_plan`, with explicit fuel.  The
Python loop has no fuel; `bfsFuel` below is proved sufficient for the loop
to drain the queue, which is exactly the termination argument. -/
def bfsRun (adj : String → List String) :
    Nat → List (String × Nat) × List (String × Nat) →
    List (String × Nat) × List (String × Nat)
  | 0, st => st
  | _ + 1, (A, []) => (A, [])
  | fuel + 1, (A, (curr, level) :: rest) => bfsRun adj fuel (relaxAll adj curr level (A, rest))

/-- Every node the BFS can ever record: the seeded keys plus every
consumer occurring in the edge list. -/
def nodePool (A0 : List (String × Nat)) (edges : List (String × String)) : List String :=
  (A0.map Prod.fst ++ edges.map Prod.snd).dedup

/-- Fuel sufficient to drain the BFS queue (proved below). -/
def bfsFuel (Q0 : List (String × Nat)) (pool : List String) : Nat :=
  Q0.length + 2 * pool.length

/-- A task of the rebuild plan (`{"package": pkg_id, "level": lvl}`). -/
structure RebuildTask where
  package : String
  level : Nat
deriving DecidableEq

/-- The Python sort key `(x['level'], x['package'])`, compared as tuples. -/
def taskKeyLE (a b : RebuildTask) : Prop :=
  a.level < b.level ∨ (a.level = b.level ∧ a.package ≤ b.package)

instance taskKeyLEDec : DecidableRel taskKeyLE := fun a b => by
  unfold taskKeyLE
  infer_instance

instance taskKeyLETotal : IsTotal RebuildTask taskKeyLE := by
  constructor
  intro a b
  rcases Nat.lt_trichotomy a.level b.level with h | h | h
  · exact Or.inl (Or.inl h)
  · rcases le_total a.package b.package with hs | hs
    · exact Or.inl (Or.inr ⟨h, hs⟩)
    · exact Or.inr (Or.inr ⟨h.symm, hs⟩)
  · exact Or.inr (Or.inl h)

instance taskKeyLETrans : IsTrans RebuildTask taskKeyLE := by
  constructor
  intro a b c hab hbc
  rcases hab with h1 | ⟨h1, h1s⟩
  · rcases hbc with h2 | ⟨h2, _⟩
    · exact Or.inl (h1.trans h2)
    · exact Or.inl (h2 ▸ h1)
  · rcases hbc with h2 | ⟨h2, h2s⟩
    · exact Or.inl (h1 ▸ h2)
    · exact Or.inr ⟨h1.trans h2, h1s.trans h2s⟩

/-- `tasks.sort(key=lambda x: (x['level'], x['package']))`. -/
def sortTasks (tasks : List RebuildTask) : List RebuildTask :=
  List.insertionSort taskKeyLE tasks

/-- The persisted rebuild plan. -/
structure RebuildPlan where
  tasks : List RebuildTask
deriving DecidableEq

/-- The `local_provides_map` available to `generate_plan` (built by
`_scan_local_registry` during `__init__`). -/
def plannerLocalMap (o : PlannerOracles) : List (String × String) :=
  (scanRegistry o).1

/-- The dependency edges `generate_plan` derives for the managed set. -/
def plannerEdges (o : PlannerOracles) : List (String × String) :=
  (buildGraph o (plannerLocalMap o)).1

/-- The adjacency function `dep_graph.get(curr, [])` of the planner run. -/
def plannerAdj (o : PlannerOracles) : String → List String :=
  consumersOf (plannerEdges o)

/-- The seeded `(affected, queue, warned)` state of the planner run. -/
def plannerSeed (o : PlannerOracles) (triggers : List String) :
    List (String × Nat) × List (String × Nat) × List String :=
  seedTriggers o.managed triggers

/-- The state of the BFS after the `while queue` loop, for an arbitrary
edge list and trigger request. -/
def seededFinal (edges : List (String × String)) (managed triggers : List String) :
    List (String × Nat) × List (String × Nat) :=
  bfsRun (consumersOf edges)
    (bfsFuel (seedTriggers managed triggers).2.1 (nodePool (seedTriggers managed triggers).1 edges))
    ((seedTriggers managed triggers).1, (seedTriggers managed triggers).2.1)

/-- The `affected` dictionary after the planner's BFS has finished. -/
def plannerAffected (o : PlannerOracles) (triggers : List String) : List (String × Nat) :=
  (seededFinal (plannerEdges o) o.managed triggers).1

/-- `Planner.generate_plan`: returns `none` when `forges/` does not exist
(the Python method returns immediately and no plan file is written),
otherwise the plan that is dumped to the output file. -/
def generatePlan (o : PlannerOracles) (triggers : List String) : Option RebuildPlan :=
  if o.forgesExists = false then none
  else some ⟨sortTasks ((plannerAffected o triggers).map (fun p => ⟨p.1, p.2⟩))⟩

/-- The `main` entry point of `lc-rebuild.py`: it calls `generate_plan` and
never inspects a result or calls `sys.exit`, so the process ends with
status 0 whether or not a plan was produced (the libdnf5 import guard and
argparse errors are the only non-zero exits, and both are orthogonal to
the planning logic modeled here). -/
def plannerMain (o : PlannerOracles) (triggers : List String) : Option RebuildPlan × Nat :=
  (generatePlan o triggers, 0)

/-!
## JSON model and the chain executor (`lc.py`)
-/

/-- JSON values, for the persisted plan format and the chain loader. -/
inductive JsonVal where
  | jnull : JsonVal
  | jbool : Bool → JsonVal
  | jnum : Int → JsonVal
  | jstr : String → JsonVal
  | jarr : List JsonVal → JsonVal
  | jobj : List (String × JsonVal) → JsonVal

/-- Python `dict.get` on a parsed JSON object. -/
def jlookup (kvs : List (String × JsonVal)) (k : String) : Option JsonVal :=
  match kvs with
  | [] => none
  | (k', v) :: rest => if k = k' then some v else jlookup rest k

/-- Serialization of one task (`json.dump` writes the dict keys in
insertion order: `package` then `level`). -/
def taskJson (t : RebuildTask) : JsonVal :=
  JsonVal.jobj [("package", JsonVal.jstr t.package), ("level", JsonVal.jnum (t.level : Int))]

/-- Serialization of the whole plan: `{"tasks": [...]}`. -/
def planJson (p : RebuildPlan) : JsonVal :=
  JsonVal.jobj [("tasks", JsonVal.jarr (p.tasks.map taskJson))]

/-- Outcome of one `single_build` call, as observable from `chain`:
`ok` (returns True), `failSoft` (returns False: missing source directory,
missing spec, an exception caught by the `except Exception` handler such
as the SRPM glob coming up empty), or `failExit` (a failing external
command makes `run_cmd` call `sys.exit(1)`, which as a `SystemExit` is not
caught and terminates the process). -/
inductive BuildOutcome where
  | ok : BuildOutcome
  | failSoft : BuildOutcome
  | failExit : BuildOutcome
deriving DecidableEq

/-- How the chain invocation ends: `chain` returns True, `chain` returns
False (with the package named in the `Chain broken` message, if any),
the process is terminated by `sys.exit`, or an uncaught exception
(malformed task entry) crashes the interpreter. -/
inductive ChainEnd where
  | retTrue : ChainEnd
  | retFalse : Option String → ChainEnd
  | exited : Nat → ChainEnd
  | crash : ChainEnd
deriving DecidableEq

/-- Result of a chain run: which packages `single_build` was invoked for,
in order, and how the run ended. -/
structure ChainRes where
  invoked : List String
  outcome : ChainEnd
deriving DecidableEq

/-- The `for idx, task in enumerate(tasks)` loop of `chain`: each task must
be an object with a string `"package"` (anything else raises an uncaught
`KeyError`/`TypeError`); a soft build failure prints `Chain broken at` with
the package id and returns False; success continues with the next task. -/
def runTasks (build : String → BuildOutcome) : List JsonVal → ChainRes
  | [] => ⟨[], ChainEnd.retTrue⟩
  | t :: ts =>
    match t with
    | JsonVal.jobj kvs =>
      match jlookup kvs "package" with
      | some (JsonVal.jstr pkg) =>
        match build pkg with
        | BuildOutcome.ok =>
          let r := runTasks build ts
          ⟨pkg :: r.invoked, r.outcome⟩
        | BuildOutcome.failSoft => ⟨[pkg], ChainEnd.retFalse (some pkg)⟩
        | BuildOutcome.failExit => ⟨[pkg], ChainEnd.exited 1⟩
      | _ => ⟨[], ChainEnd.crash⟩
    | _ => ⟨[], ChainEnd.crash⟩

/-- `chain` of `lc.py`: `json.load(f).get('tasks', [])` inside
`try/except` (a read/parse error or a non-object document returns False
with no build invoked); a `tasks` value that is not a list fails on
`len(tasks)`/iteration with an uncaught exception; a missing `tasks` key
defaults to the empty list. -/
def chainExec (build : String → BuildOutcome) (loaded : Except String JsonVal) : ChainRes :=
  match loaded with
  | Except.error _ => ⟨[], ChainEnd.retFalse none⟩
  | Except.ok v =>
    match v with
    | JsonVal.jobj kvs =>
      match jlookup kvs "tasks" with
      | none => runTasks build []
      | some (JsonVal.jarr ts) => runTasks build ts
      | some _ => ⟨[], ChainEnd.crash⟩
    | _ => ⟨[], ChainEnd.retFalse none⟩

/-- The exit status of the `lc build --chain` process: `main` executes
`args.func(args)` and discards its boolean result, so unless `sys.exit`
was called somewhere inside, the interpreter ends with status 0. -/
def lcMainExit (r : ChainRes) : Nat :=
  match r.outcome with
  | ChainEnd.exited c => c
  | _ => 0

/-!
## Reachability specification

`reachIn adj S n` is the list of nodes reachable from the seed set `S` by
walks of exactly `n` dependency edges; `isShortestLevel` says `l` is the
shortest reachability distance of `c` from the nearest trigger.
-/

/-- Nodes reachable in exactly `n` forward steps from `S`. -/
def reachIn (adj : String → List String) (S : List String) : Nat → List String
  | 0 => S
  | n + 1 => (reachIn adj S n).flatMap adj

/-- Shortest reachability distance, in dependency edges, from the nearest
trigger. -/
def isShortestLevel (adj : String → List String) (S : List String) (c : String) (l : Nat) :
    Prop :=
  c ∈ reachIn adj S l ∧ ∀ m < l, c ∉ reachIn adj S m

/-- The requested triggers that are members of the managed-package set. -/
def validTriggers (managed triggers : List String) : List String :=
  triggers.filter (fun t => decide (t ∈ managed))

/-- The affected-map component of the seeding fold. -/
def seedMapFold (managed : List String) (A : List (String × Nat)) (ts : List String) :
    List (String × Nat) :=
  ts.foldl (fun acc t => if t ∈ managed then insertA acc t 0 else acc) A

/-!
## BFS invariants

`BfsInv adj S pool A Q` is the simultaneous invariant of the `while queue`
loop of `generate_plan`: the affected map has no duplicate keys, valid
triggers stay at level 0, every recorded level is the length of an actual
walk from the seeds, the FIFO queue carries non-decreasing levels spanning
at most two consecutive values, queue entries agree with the affected map,
every recorded level is at most one above any queued level, and a recorded
node is either still queued or all of its consumers are recorded within
one extra level.  `pool` over-approximates the keys the map can acquire.
-/

structure BfsInv (adj : String → List String) (S : List String) (pool : List String)
    (A Q : List (String × Nat)) : Prop where
  keysNodup : (A.map Prod.fst).Nodup
  trig : ∀ s ∈ S, lookupA A s = some 0
  walk : ∀ c l, lookupA A c = some l → c ∈ reachIn adj S l
  qSorted : Q.Pairwise (fun a b => a.2 ≤ b.2 ∧ b.2 ≤ a.2 + 1)
  qCurrent : ∀ p ∈ Q, lookupA A p.1 = some p.2
  qBound : ∀ p ∈ Q, ∀ c l, lookupA A c = some l → l ≤ p.2 + 1
  closed : ∀ c l, lookupA A c = some l →
    (c, l) ∈ Q ∨ ∀ d ∈ adj c, ∃ l2, lookupA A d = some l2 ∧ l2 ≤ l + 1
  dom : ∀ c ∈ A.map Prod.fst, c ∈ pool

/-- Progress measure of the BFS loop: each iteration pops one queue entry
and every enqueue is paired with a fresh key entering the affected map. -/
def bfsMeasure (pool : List String) (A Q : List (String × Nat)) : Nat :=
  Q.length + 2 * (pool.length - (A.map Prod.fst).length)

/-!
## Concrete instances used by the claim witnesses and counterexamples
-/

/-- A two-package cyclic project: `alpha` build-requires a capability of
`beta` and vice versa (the mutual-cycle scenario of the specification). -/
def oCyc : PlannerOracles where
  forgesExists := true
  managed := ["alpha", "beta"]
  hasSpec := fun _ => true
  namesQuery := fun p => Except.ok [p]
  providesQuery := fun _ => Except.ok []
  brQuery := fun p => if p = "alpha" then Except.ok ["beta"] else Except.ok ["alpha"]
  extQuery := fun _ => none

/-- A planner invocation whose managed-packages root does not exist. -/
def oNoForges : PlannerOracles where
  forgesExists := false
  managed := []
  hasSpec := fun _ => false
  namesQuery := fun _ => Except.ok []
  providesQuery := fun _ => Except.ok []
  brQuery := fun _ => Except.ok []
  extQuery := fun _ => none

/-- A three-package project in which `mid` fails to parse while `top`
and `bot` are healthy and unrelated. -/
def oParseFail : PlannerOracles where
  forgesExists := true
  managed := ["bot", "mid", "top"]
  hasSpec := fun _ => true
  namesQuery := fun p => if p = "mid" then Except.error "parse error" else Except.ok [p]
  providesQuery := fun p => if p = "mid" then Except.error "parse error" else Except.ok []
  brQuery := fun p => if p = "mid" then Except.error "parse error" else Except.ok []
  extQuery := fun _ => none

/-- An external resolver that knows no provider for any capability. -/
def extNone : String → Option String := fun _ => none

/-- A builder behaviour for the chain scenario: package `b` fails softly
(`single_build` returns False), everything else succeeds. -/
def buildFailB : String → BuildOutcome :=
  fun p => if p = "b" then BuildOutcome.failSoft else BuildOutcome.ok

/-- A builder in which every build succeeds. -/
def buildAllOk : String → BuildOutcome := fun _ => BuildOutcome.ok

/-- A three-task plan document `a`, `b`, `c` at levels 0, 1, 2. -/
def planThree : RebuildPlan :=
  ⟨[⟨"a", 0⟩, ⟨"b", 1⟩, ⟨"c", 2⟩]⟩

/-!
## Association-list key lemmas
-/

theorem lookupA_insertA_self (m : List (String × Nat)) (k : String) (v : Nat) :
    lookupA (insertA m k v) k = some v := by
  induction m with
  | nil => simp [insertA, lookupA]
  | cons hd tl ih =>
    by_cases h : k = hd.1
    · simp [insertA, lookupA, h]
    · simp only [insertA, lookupA]
      rw [if_neg h]
      simp only [lookupA]
      rw [if_neg h]
      exact ih

theorem lookupA_insertA_ne (m : List (String × Nat)) (k k' : String) (v : Nat)
    (h : k' ≠ k) : lookupA (insertA m k v) k' = lookupA m k' := by
  induction m with
  | nil => simp [insertA, lookupA, h]
  | cons hd tl ih =>
    by_cases hk : k = hd.1
    · subst hk
      simp [insertA, lookupA, h]
    · simp only [insertA]
      rw [if_neg hk]
      simp only [lookupA]
      by_cases hk' : k' = hd.1
      · simp [hk']
      · rw [if_neg hk', if_neg hk']
        exact ih

/-- Inserting a key that is absent appends the new pair at the tail
(Python dict insertion order). -/
theorem insertA_of_not_mem (m : List (String × Nat)) (k : String) (v : Nat)
    (h : lookupA m k = none) : insertA m k v = m ++ [(k, v)] := by
  induction m with
  | nil => simp [insertA]
  | cons hd tl ih =>
    simp only [lookupA] at h
    by_cases hk : k = hd.1
    · rw [if_pos hk] at h
      exact absurd h (by simp)
    · rw [if_neg hk] at h
      simp only [insertA]
      rw [if_neg hk]
      simp [ih h]

theorem lookupA_append (m₁ m₂ : List (String × Nat)) (k : String) :
    lookupA (m₁ ++ m₂) k =
      match lookupA m₁ k with
      | some v => some v
      | none => lookupA m₂ k := by
  induction m₁ with
  | nil => simp [lookupA]
  | cons hd tl ih =>
    simp only [List.cons_append, lookupA]
    by_cases hk : k = hd.1
    · simp [hk]
    · rw [if_neg hk, if_neg hk]
      exact ih

theorem lookupA_append_left (m₁ m₂ : List (String × Nat)) (k : String) (v : Nat)
    (h : lookupA m₁ k = some v) : lookupA (m₁ ++ m₂) k = some v := by
  rw [lookupA_append, h]

theorem lookupA_append_right (m₁ m₂ : List (String × Nat)) (k : String)
    (h : lookupA m₁ k = none) : lookupA (m₁ ++ m₂) k = lookupA m₂ k := by
  rw [lookupA_append, h]

theorem lookupA_eq_none_iff (m : List (String × Nat)) (k : String) :
    lookupA m k = none ↔ k ∉ m.map Prod.fst := by
  induction m with
  | nil => simp [lookupA]
  | cons hd tl ih =>
    simp only [lookupA, List.map_cons, List.mem_cons]
    by_cases hk : k = hd.1
    · simp [hk]
    · rw [if_neg hk]
      simp [hk, ih]

theorem lookupA_isSome_of_mem (m : List (String × Nat)) (p : String × Nat)
    (h : p ∈ m) : ∃ v, lookupA m p.1 = some v := by
  induction m with
  | nil => simp at h
  | cons hd tl ih =>
    rcases List.mem_cons.mp h with h1 | h2
    · subst h1
      exact ⟨p.2, by simp [lookupA]⟩
    · by_cases hk : p.1 = hd.1
      · exact ⟨hd.2, by simp [lookupA, hk]⟩
      · obtain ⟨v, hv⟩ := ih h2
        exact ⟨v, by simp only [lookupA]; rw [if_neg hk]; exact hv⟩

theorem mem_of_lookupA (m : List (String × Nat)) (k : String) (v : Nat)
    (h : lookupA m k = some v) : (k, v) ∈ m := by
  induction m with
  | nil => simp [lookupA] at h
  | cons hd tl ih =>
    simp only [lookupA] at h
    by_cases hk : k = hd.1
    · rw [if_pos hk] at h
      have hv : hd.2 = v := by injection h
      have : (k, v) = hd := by
        cases hd
        simp_all
      rw [this]
      exact List.mem_cons_self _ _
    · rw [if_neg hk] at h
      exact List.mem_cons_of_mem _ (ih h)

theorem lookupA_of_mem_nodup (m : List (String × Nat)) (p : String × Nat)
    (hmem : p ∈ m) (hnd : (m.map Prod.fst).Nodup) : lookupA m p.1 = some p.2 := by
  induction m with
  | nil => simp at hmem
  | cons hd tl ih =>
    simp only [List.map_cons, List.nodup_cons] at hnd
    rcases List.mem_cons.mp hmem with h1 | h2
    · subst h1
      simp [lookupA]
    · have hne : p.1 ≠ hd.1 := by
        intro he
        exact hnd.1 (he ▸ (List.mem_map_of_mem Prod.fst h2))
      simp only [lookupA]
      rw [if_neg hne]
      exact ih h2 hnd.2

theorem map_fst_insertA_of_some (m : List (String × Nat)) (k : String) (v w : Nat)
    (h : lookupA m k = some w) : (insertA m k v).map Prod.fst = m.map Prod.fst := by
  induction m with
  | nil => simp [lookupA] at h
  | cons hd tl ih =>
    simp only [lookupA] at h
    by_cases hk : k = hd.1
    · simp [insertA, hk]
    · rw [if_neg hk] at h
      simp only [insertA]
      rw [if_neg hk]
      simp [ih h]

theorem map_fst_insertA_of_none (m : List (String × Nat)) (k : String) (v : Nat)
    (h : lookupA m k = none) : (insertA m k v).map Prod.fst = m.map Prod.fst ++ [k] := by
  rw [insertA_of_not_mem m k v h]
  simp

theorem nodup_insertA (m : List (String × Nat)) (k : String) (v : Nat)
    (h : (m.map Prod.fst).Nodup) : ((insertA m k v).map Prod.fst).Nodup := by
  cases hl : lookupA m k with
  | none =>
    rw [map_fst_insertA_of_none m k v hl]
    have hk : k ∉ m.map Prod.fst := (lookupA_eq_none_iff m k).mp hl
    simp [List.nodup_append, h, hk]
  | some w => rw [map_fst_insertA_of_some m k v w hl]; exact h

/-!
## Seeding lemmas

The affected/queue/warned components of the seeding loop evolve
independently; we characterize each.
-/

theorem seed_components (managed : List String) :
    ∀ (ts : List String) (A Q : List (String × Nat)) (W : List String),
    (ts.foldl (seedStep managed) (A, Q, W)) =
      (seedMapFold managed A ts,
       Q ++ (ts.filter (fun t => decide (t ∈ managed))).map (fun t => (t, 0)),
       W ++ ts.filter (fun t => !decide (t ∈ managed))) := by
  intro ts
  induction ts with
  | nil => intro A Q W; simp [seedMapFold]
  | cons t ts ih =>
    intro A Q W
    by_cases h : t ∈ managed
    · simp only [List.foldl_cons, seedStep, if_pos h]
      rw [ih]
      simp [seedMapFold, h]
    · simp only [List.foldl_cons, seedStep, if_neg h]
      rw [ih]
      simp [seedMapFold, h]

theorem seedMapFold_lookup_zero (managed : List String) :
    ∀ (ts : List String) (A : List (String × Nat)) (s : String),
    lookupA A s = some 0 ∨ (s ∈ ts ∧ s ∈ managed) →
    lookupA (seedMapFold managed A ts) s = some 0 := by
  intro ts
  induction ts with
  | nil =>
    intro A s h
    rcases h with h | ⟨h1, _⟩
    · simpa [seedMapFold] using h
    · simp at h1
  | cons t ts ih =>
    intro A s h
    simp only [seedMapFold, List.foldl_cons] at *
    by_cases ht : t ∈ managed
    · rw [if_pos ht]
      apply ih
      rcases h with h | ⟨h1, h2⟩
      · left
        by_cases hst : s = t
        · subst hst; rw [lookupA_insertA_self]
        · rw [lookupA_insertA_ne _ _ _ _ hst]; exact h
      · rcases List.mem_cons.mp h1 with rfl | h1
        · left; rw [lookupA_insertA_self]
        · right; exact ⟨h1, h2⟩
    · rw [if_neg ht]
      apply ih
      rcases h with h | ⟨h1, h2⟩
      · left; exact h
      · rcases List.mem_cons.mp h1 with rfl | h1
        · exact absurd h2 ht
        · right; exact ⟨h1, h2⟩

theorem seedMapFold_lookup_inv (managed : List String) :
    ∀ (ts : List String) (A : List (String × Nat)) (s : String) (l : Nat),
    lookupA (seedMapFold managed A ts) s = some l →
    lookupA A s = some l ∨ (l = 0 ∧ s ∈ ts ∧ s ∈ managed) := by
  intro ts
  induction ts with
  | nil => intro A s l h; left; simpa [seedMapFold] using h
  | cons t ts ih =>
    intro A s l h
    simp only [seedMapFold, List.foldl_cons] at h
    by_cases ht : t ∈ managed
    · rw [if_pos ht] at h
      rcases ih (insertA A t 0) s l h with h1 | ⟨h1, h2, h3⟩
      · by_cases hst : s = t
        · subst hst
          rw [lookupA_insertA_self] at h1
          right
          refine ⟨by injection h1 with h1; omega, List.mem_cons_self _ _, ht⟩
        · rw [lookupA_insertA_ne _ _ _ _ hst] at h1
          left; exact h1
      · right; exact ⟨h1, List.mem_cons_of_mem _ h2, h3⟩
    · rw [if_neg ht] at h
      rcases ih A s l h with h1 | ⟨h1, h2, h3⟩
      · left; exact h1
      · right; exact ⟨h1, List.mem_cons_of_mem _ h2, h3⟩

theorem seedMapFold_nodup (managed : List String) :
    ∀ (ts : List String) (A : List (String × Nat)),
    (A.map Prod.fst).Nodup → ((seedMapFold managed A ts).map Prod.fst).Nodup := by
  intro ts
  induction ts with
  | nil => intro A h; simpa [seedMapFold] using h
  | cons t ts ih =>
    intro A h
    simp only [seedMapFold, List.foldl_cons]
    by_cases ht : t ∈ managed
    · rw [if_pos ht]
      exact ih _ (nodup_insertA A t 0 h)
    · rw [if_neg ht]
      exact ih _ h

theorem lookupA_append_none_left (m₁ m₂ : List (String × Nat)) (k : String)
    (h : lookupA (m₁ ++ m₂) k = none) : lookupA m₁ k = none := by
  cases hl : lookupA m₁ k with
  | none => rfl
  | some v => rw [lookupA_append_left m₁ m₂ k v hl] at h; cases h

/-- Characterization of the inner `for consumer in consumers` fold when
every recorded level is at most `nl`: the strict-improvement branch never
fires, so the fold appends the same list of fresh level-`nl` pairs to the
affected map and to the queue, and afterwards every listed consumer is
recorded at level at most `nl`. -/
theorem relaxFold_spec (nl : Nat) :
    ∀ (cs : List String) (A Q : List (String × Nat)),
    (∀ c l, lookupA A c = some l → l ≤ nl) →
    (A.map Prod.fst).Nodup →
    ∃ new : List (String × Nat),
      cs.foldl (relaxOne nl) (A, Q) = (A ++ new, Q ++ new) ∧
      (∀ p ∈ new, p.2 = nl ∧ p.1 ∈ cs ∧ lookupA A p.1 = none) ∧
      ((A ++ new).map Prod.fst).Nodup ∧
      (∀ d ∈ cs, ∃ l2, lookupA (A ++ new) d = some l2 ∧ l2 ≤ nl) := by
  intro cs
  induction cs with
  | nil =>
    intro A Q hub hnd
    exact ⟨[], by simp, by simp, by simpa using hnd, by simp⟩
  | cons c cs ih =>
    intro A Q hub hnd
    simp only [List.foldl_cons]
    cases hc : lookupA A c with
    | some l =>
      have hnotlt : ¬ nl < l := Nat.not_lt.mpr (hub c l hc)
      have hstep : relaxOne nl (A, Q) c = (A, Q) := by
        simp [relaxOne, hc, hnotlt]
      rw [hstep]
      obtain ⟨new, heq, hprops, hnd2, hall⟩ := ih A Q hub hnd
      refine ⟨new, heq, ?_, hnd2, ?_⟩
      · intro p hp
        obtain ⟨h1, h2, h3⟩ := hprops p hp
        exact ⟨h1, List.mem_cons_of_mem _ h2, h3⟩
      · intro d hd
        rcases List.mem_cons.mp hd with rfl | hd
        · exact ⟨l, lookupA_append_left _ _ _ _ hc, hub d l hc⟩
        · exact hall d hd
    | none =>
      have hstep : relaxOne nl (A, Q) c = (A ++ [(c, nl)], Q ++ [(c, nl)]) := by
        simp [relaxOne, hc, insertA_of_not_mem A c nl hc]
      rw [hstep]
      have hub2 : ∀ x l, lookupA (A ++ [(c, nl)]) x = some l → l ≤ nl := by
        intro x l hx
        rw [lookupA_append] at hx
        cases hx2 : lookupA A x with
        | some v => rw [hx2] at hx; injection hx with hx; exact hx ▸ hub x v hx2
        | none =>
          rw [hx2] at hx
          simp only [lookupA] at hx
          by_cases hxc : x = c
          · rw [if_pos hxc] at hx; injection hx with hx; omega
          · rw [if_neg hxc] at hx; cases hx
      have hnd2 : ((A ++ [(c, nl)]).map Prod.fst).Nodup := by
        have hcnot : c ∉ A.map Prod.fst := (lookupA_eq_none_iff A c).mp hc
        simp [List.nodup_append, hnd, hcnot]
      obtain ⟨new, heq, hprops, hnd3, hall⟩ := ih (A ++ [(c, nl)]) (Q ++ [(c, nl)]) hub2 hnd2
      refine ⟨(c, nl) :: new, ?_, ?_, ?_, ?_⟩
      · rw [heq]
        simp
      · intro p hp
        rcases List.mem_cons.mp hp with rfl | hp
        · exact ⟨rfl, List.mem_cons_self _ _, hc⟩
        · obtain ⟨h1, h2, h3⟩ := hprops p hp
          exact ⟨h1, List.mem_cons_of_mem _ h2, lookupA_append_none_left _ _ _ h3⟩
      · have : A ++ (c, nl) :: new = (A ++ [(c, nl)]) ++ new := by simp
        rw [this]
        exact hnd3
      · intro d hd
        have hre : A ++ (c, nl) :: new = (A ++ [(c, nl)]) ++ new := by simp
        rcases List.mem_cons.mp hd with rfl | hd
        · refine ⟨nl, ?_, le_refl nl⟩
          rw [hre]
          apply lookupA_append_left
          rw [lookupA_append_right A _ _ hc]
          simp [lookupA]
        · obtain ⟨l2, hl2, hle⟩ := hall d hd
          exact ⟨l2, by rw [hre]; exact hl2, hle⟩

/-- One iteration of the `while queue` loop preserves the invariant and
strictly decreases the progress measure. -/
theorem bfs_step (adj : String → List String) (S pool : List String)
    (adjPool : ∀ v d, d ∈ adj v → d ∈ pool)
    (curr : String) (level : Nat) (rest A : List (String × Nat))
    (inv : BfsInv adj S pool A ((curr, level) :: rest)) :
    BfsInv adj S pool (relaxAll adj curr level (A, rest)).1
      (relaxAll adj curr level (A, rest)).2 ∧
    bfsMeasure pool (relaxAll adj curr level (A, rest)).1
      (relaxAll adj curr level (A, rest)).2 <
      bfsMeasure pool A ((curr, level) :: rest) := by
  have hmemQ : ((curr, level)) ∈ ((curr, level) :: rest) := List.mem_cons_self _ _
  have hub : ∀ c l, lookupA A c = some l → l ≤ level + 1 := by
    intro c l hc
    exact inv.qBound (curr, level) hmemQ c l hc
  obtain ⟨new, heq, hprops, hnd2, hall⟩ :=
    relaxFold_spec (level + 1) (adj curr) A rest hub inv.keysNodup
  have hres : relaxAll adj curr level (A, rest) = (A ++ new, rest ++ new) := by
    simpa [relaxAll] using heq
  rw [hres]
  have hsort := List.pairwise_cons.mp inv.qSorted
  have hcurA : lookupA A curr = some level := inv.qCurrent (curr, level) hmemQ
  have hnewKeysNodup : (new.map Prod.fst).Nodup := by
    have := hnd2
    rw [List.map_append, List.nodup_append] at this
    exact this.2.1
  have hnewCur : ∀ p ∈ new, lookupA (A ++ new) p.1 = some p.2 := by
    intro p hp
    obtain ⟨_, _, hnone⟩ := hprops p hp
    rw [lookupA_append_right A new p.1 hnone]
    exact lookupA_of_mem_nodup new p hp hnewKeysNodup
  have hAsplit : ∀ c l, lookupA (A ++ new) c = some l →
      lookupA A c = some l ∨ ((c, l) ∈ new ∧ l = level + 1) := by
    intro c l hc
    cases hA : lookupA A c with
    | some v =>
      rw [lookupA_append_left A new c v hA] at hc
      left
      exact hc
    | none =>
      rw [lookupA_append_right A new c hA] at hc
      right
      have hmem := mem_of_lookupA new c l hc
      exact ⟨hmem, (hprops (c, l) hmem).1⟩
  constructor
  · constructor
    · exact hnd2
    · intro s hs
      exact lookupA_append_left _ _ _ _ (inv.trig s hs)
    · intro c l hc
      rcases hAsplit c l hc with h | ⟨hmem, hl⟩
      · exact inv.walk c l h
      · subst hl
        obtain ⟨_, hcadj, _⟩ := hprops (c, level + 1) hmem
        have hcr : curr ∈ reachIn adj S level := inv.walk curr level hcurA
        simp only [reachIn, List.mem_flatMap]
        exact ⟨curr, hcr, hcadj⟩
    · rw [List.pairwise_append]
      refine ⟨hsort.2, ?_, ?_⟩
      · apply List.pairwise_of_forall_mem_list
        intro a ha b hb
        rw [(hprops a ha).1, (hprops b hb).1]
        exact ⟨le_refl _, Nat.le_succ _⟩
      · intro a ha b hb
        obtain ⟨h1, h2⟩ := hsort.1 a ha
        rw [(hprops b hb).1]
        exact ⟨by omega, by omega⟩
    · intro p hp
      rcases List.mem_append.mp hp with hp | hp
      · exact lookupA_append_left _ _ _ _ (inv.qCurrent p (List.mem_cons_of_mem _ hp))
      · exact hnewCur p hp
    · intro p hp c l hc
      have hl2 : l ≤ level + 1 + 1 := by
        rcases hAsplit c l hc with h | ⟨_, hl⟩
        · exact le_trans (hub c l h) (Nat.le_succ _)
        · omega
      rcases List.mem_append.mp hp with hp | hp
      · obtain ⟨hge, _⟩ := hsort.1 p hp
        rcases hAsplit c l hc with h | ⟨_, hl⟩
        · have := hub c l h
          simp only at hge
          omega
        · simp only at hge
          omega
      · rw [(hprops p hp).1]
        exact hl2
    · intro c l hc
      rcases hAsplit c l hc with h | ⟨hmem, hl⟩
      · rcases inv.closed c l h with hq | hcl
        · rcases List.mem_cons.mp hq with hq | hq
          · have hc2 : c = curr ∧ l = level := by
              constructor
              · exact congrArg Prod.fst hq
              · exact congrArg Prod.snd hq
            obtain ⟨rfl, rfl⟩ := hc2
            right
            intro d hd
            obtain ⟨l2, hl2, hle⟩ := hall d hd
            exact ⟨l2, hl2, hle⟩
          · left
            exact List.mem_append_left _ hq
        · right
          intro d hd
          obtain ⟨l2, hl2, hle⟩ := hcl d hd
          exact ⟨l2, lookupA_append_left _ _ _ _ hl2, hle⟩
      · left
        subst hl
        exact List.mem_append_right _ hmem
    · intro c hcm
      rw [List.map_append, List.mem_append] at hcm
      rcases hcm with h | h
      · exact inv.dom c h
      · obtain ⟨p, hp, rfl⟩ := List.mem_map.mp h
        exact adjPool curr p.1 (hprops p hp).2.1
  · have hsub : (A ++ new).map Prod.fst ⊆ pool := by
      intro c hcm
      rw [List.map_append, List.mem_append] at hcm
      rcases hcm with h | h
      · exact inv.dom c h
      · obtain ⟨p, hp, rfl⟩ := List.mem_map.mp h
        exact adjPool curr p.1 (hprops p hp).2.1
    have hlen : ((A ++ new).map Prod.fst).length ≤ pool.length :=
      (List.subperm_of_subset hnd2 hsub).length_le
    simp only [bfsMeasure, List.map_append, List.length_append, List.length_map,
      List.length_cons] at *
    omega

/-- With fuel at least the progress measure, the loop drains the queue and
the invariant holds of the final state. -/
theorem bfsRun_drains (adj : String → List String) (S pool : List String)
    (adjPool : ∀ v d, d ∈ adj v → d ∈ pool) :
    ∀ (fuel : Nat) (A Q : List (String × Nat)), BfsInv adj S pool A Q →
    bfsMeasure pool A Q ≤ fuel →
    (bfsRun adj fuel (A, Q)).2 = [] ∧ BfsInv adj S pool (bfsRun adj fuel (A, Q)).1 [] := by
  intro fuel
  induction fuel with
  | zero =>
    intro A Q inv hm
    have hq : Q.length = 0 := by
      simp only [bfsMeasure] at hm
      omega
    have hQ : Q = [] := List.length_eq_zero.mp hq
    subst hQ
    exact ⟨rfl, inv⟩
  | succ fuel ih =>
    intro A Q inv hm
    match Q with
    | [] => exact ⟨rfl, inv⟩
    | (curr, level) :: rest =>
      obtain ⟨inv2, hdec⟩ := bfs_step adj S pool adjPool curr level rest A inv
      rcases hr : relaxAll adj curr level (A, rest) with ⟨A2, Q2⟩
      rw [hr] at inv2 hdec
      simp only at inv2 hdec
      have hrun : bfsRun adj (fuel + 1) (A, (curr, level) :: rest) = bfsRun adj fuel (A2, Q2) := by
        simp [bfsRun, hr]
      rw [hrun]
      exact ih A2 Q2 inv2 (by omega)

/-- Once the queue is empty, every node reachable in `m` steps is recorded
at a level of at most `m`. -/
theorem bfs_final_reach (adj : String → List String) (S pool : List String)
    (A : List (String × Nat)) (inv : BfsInv adj S pool A []) :
    ∀ (m : Nat) (c : String), c ∈ reachIn adj S m → ∃ l, lookupA A c = some l ∧ l ≤ m := by
  intro m
  induction m with
  | zero =>
    intro c hc
    exact ⟨0, inv.trig c hc, le_refl 0⟩
  | succ m ih =>
    intro c hc
    simp only [reachIn, List.mem_flatMap] at hc
    obtain ⟨u, hu, hcu⟩ := hc
    obtain ⟨lu, hlu, hlum⟩ := ih u hu
    rcases inv.closed u lu hlu with hq | hcl
    · simp at hq
    · obtain ⟨l2, hl2, hle⟩ := hcl c hcu
      exact ⟨l2, hl2, by omega⟩

/-- The final affected map is exactly the shortest-level map over the
nodes reachable from the seeds. -/
theorem bfs_final_iff (adj : String → List String) (S pool : List String)
    (A : List (String × Nat)) (inv : BfsInv adj S pool A []) (c : String) (l : Nat) :
    lookupA A c = some l ↔ isShortestLevel adj S c l := by
  constructor
  · intro h
    refine ⟨inv.walk c l h, ?_⟩
    intro m hm hcm
    obtain ⟨l2, hl2, hle⟩ := bfs_final_reach adj S pool A inv m c hcm
    rw [h] at hl2
    injection hl2 with hl2
    omega
  · rintro ⟨hc, hmin⟩
    obtain ⟨l2, hl2, hle⟩ := bfs_final_reach adj S pool A inv l c hc
    have hnot : ¬ l2 < l := fun hlt => hmin l2 hlt (inv.walk c l2 hl2)
    have heq : l2 = l := by omega
    exact heq ▸ hl2

/-- Membership in the recorded consumers of a provider. -/
theorem mem_consumersOf (edges : List (String × String)) (v d : String) :
    d ∈ consumersOf edges v ↔ (v, d) ∈ edges := by
  simp only [consumersOf, List.mem_map, List.mem_filter]
  constructor
  · rintro ⟨e, ⟨he, heq⟩, rfl⟩
    have hv : e.1 = v := by simpa using heq
    have : e = (v, e.2) := by
      cases e
      simp_all
    rw [← this]
    exact he
  · intro h
    exact ⟨(v, d), ⟨h, by simp⟩, rfl⟩

/-- The seeded state satisfies the loop invariant. -/
theorem seed_inv (adj : String → List String) (managed triggers pool : List String)
    (hpoolA : ∀ c ∈ (seedMapFold managed [] triggers).map Prod.fst, c ∈ pool) :
    BfsInv adj (validTriggers managed triggers) pool (seedMapFold managed [] triggers)
      ((validTriggers managed triggers).map (fun t => (t, 0))) := by
  have hlook0 : ∀ s ∈ validTriggers managed triggers,
      lookupA (seedMapFold managed [] triggers) s = some 0 := by
    intro s hs
    rw [validTriggers, List.mem_filter] at hs
    exact seedMapFold_lookup_zero managed triggers [] s
      (Or.inr ⟨hs.1, by simpa using hs.2⟩)
  have hinv : ∀ c l, lookupA (seedMapFold managed [] triggers) c = some l →
      l = 0 ∧ c ∈ validTriggers managed triggers := by
    intro c l hc
    rcases seedMapFold_lookup_inv managed triggers [] c l hc with h | ⟨h1, h2, h3⟩
    · simp [lookupA] at h
    · exact ⟨h1, by rw [validTriggers, List.mem_filter]; exact ⟨h2, by simpa using h3⟩⟩
  constructor
  · exact seedMapFold_nodup managed triggers [] (by simp)
  · exact hlook0
  · intro c l hc
    obtain ⟨rfl, hcv⟩ := hinv c l hc
    exact hcv
  · apply List.pairwise_of_forall_mem_list
    intro a ha b hb
    obtain ⟨_, _, rfl⟩ := List.mem_map.mp ha
    obtain ⟨_, _, rfl⟩ := List.mem_map.mp hb
    exact ⟨le_refl 0, by omega⟩
  · intro p hp
    obtain ⟨t, ht, rfl⟩ := List.mem_map.mp hp
    exact hlook0 t ht
  · intro p hp c l hc
    obtain ⟨rfl, _⟩ := hinv c l hc
    omega
  · intro c l hc
    obtain ⟨rfl, hcv⟩ := hinv c l hc
    left
    exact List.mem_map.mpr ⟨c, hcv, rfl⟩
  · exact hpoolA

/-- The seeded BFS of `generate_plan` drains its queue within `bfsFuel`
steps on every finite edge list — cyclic or not — and its final affected
map is exactly the shortest-level map over the nodes forward-reachable
from the valid triggers. -/
theorem seededFinal_spec (edges : List (String × String)) (managed triggers : List String) :
    (seededFinal edges managed triggers).2 = [] ∧
    (((seededFinal edges managed triggers).1.map Prod.fst).Nodup) ∧
    ∀ c l, lookupA (seededFinal edges managed triggers).1 c = some l ↔
      isShortestLevel (consumersOf edges) (validTriggers managed triggers) c l := by
  have hseed : seedTriggers managed triggers =
      (seedMapFold managed [] triggers,
       (validTriggers managed triggers).map (fun t => (t, 0)),
       triggers.filter (fun t => !decide (t ∈ managed))) := by
    have h := seed_components managed triggers [] [] []
    simpa [seedTriggers, validTriggers] using h
  have hgoal : seededFinal edges managed triggers =
      bfsRun (consumersOf edges)
        (bfsFuel ((validTriggers managed triggers).map (fun t => (t, 0)))
          (nodePool (seedMapFold managed [] triggers) edges))
        (seedMapFold managed [] triggers,
         (validTriggers managed triggers).map (fun t => (t, 0))) := by
    rw [seededFinal, hseed]
  have hpool : ∀ c ∈ (seedMapFold managed [] triggers).map Prod.fst,
      c ∈ nodePool (seedMapFold managed [] triggers) edges := by
    intro c hc
    rw [nodePool, List.mem_dedup, List.mem_append]
    exact Or.inl hc
  have hadjPool : ∀ v d, d ∈ consumersOf edges v →
      d ∈ nodePool (seedMapFold managed [] triggers) edges := by
    intro v d hd
    rw [mem_consumersOf] at hd
    rw [nodePool, List.mem_dedup, List.mem_append]
    right
    exact List.mem_map.mpr ⟨(v, d), hd, rfl⟩
  have hinv0 := seed_inv (consumersOf edges) managed triggers
    (nodePool (seedMapFold managed [] triggers) edges) hpool
  have hfuel : bfsMeasure (nodePool (seedMapFold managed [] triggers) edges)
      (seedMapFold managed [] triggers)
      ((validTriggers managed triggers).map (fun t => (t, 0))) ≤
      bfsFuel ((validTriggers managed triggers).map (fun t => (t, 0)))
      (nodePool (seedMapFold managed [] triggers) edges) := by
    rw [bfsMeasure, bfsFuel]
    omega
  have hdrain := bfsRun_drains (consumersOf edges) (validTriggers managed triggers)
    (nodePool (seedMapFold managed [] triggers) edges) hadjPool
    (bfsFuel ((validTriggers managed triggers).map (fun t => (t, 0)))
      (nodePool (seedMapFold managed [] triggers) edges))
    (seedMapFold managed [] triggers)
    ((validTriggers managed triggers).map (fun t => (t, 0))) hinv0 hfuel
  rw [hgoal]
  refine ⟨hdrain.1, hdrain.2.keysNodup, ?_⟩
  intro c l
  exact bfs_final_iff (consumersOf edges) (validTriggers managed triggers) _ _ hdrain.2 c l

/-!
## Plan-level helper lemmas
-/

theorem generatePlan_eq (o : PlannerOracles) (triggers : List String)
    (h : o.forgesExists = true) :
    generatePlan o triggers =
      some ⟨sortTasks ((plannerAffected o triggers).map (fun p => RebuildTask.mk p.1 p.2))⟩ := by
  rw [generatePlan, h]
  simp

theorem sorted_sortTasks (tasks : List RebuildTask) :
    List.Sorted taskKeyLE (sortTasks tasks) :=
  List.sorted_insertionSort taskKeyLE tasks

theorem mem_planTasks (o : PlannerOracles) (triggers : List String) (pkg : String) (l : Nat) :
    RebuildTask.mk pkg l ∈
      sortTasks ((plannerAffected o triggers).map (fun p => RebuildTask.mk p.1 p.2)) ↔
    isShortestLevel (plannerAdj o) (validTriggers o.managed triggers) pkg l := by
  obtain ⟨hdrain, hnd, hiff⟩ := seededFinal_spec (plannerEdges o) o.managed triggers
  rw [sortTasks, List.mem_insertionSort]
  constructor
  · intro hm
    obtain ⟨p, hp, heq⟩ := List.mem_map.mp hm
    have hpq : p.1 = pkg ∧ p.2 = l := by
      rw [RebuildTask.mk.injEq] at heq
      exact heq
    have hlk : lookupA (plannerAffected o triggers) pkg = some l := by
      have hl := lookupA_of_mem_nodup _ p hp hnd
      rw [hpq.1, hpq.2] at hl
      exact hl
    exact (hiff pkg l).mp hlk
  · intro hs
    have hlk := (hiff pkg l).mpr hs
    exact List.mem_map.mpr ⟨(pkg, l), mem_of_lookupA _ _ _ hlk, rfl⟩

theorem bfsRun_nil_queue (adj : String → List String) (fuel : Nat)
    (A : List (String × Nat)) : bfsRun adj fuel (A, []) = (A, []) := by
  cases fuel with
  | zero => rfl
  | succ n => rfl

/-- In a `taskKeyLE`-sorted list, a task of strictly smaller level occurs
strictly earlier: the two-element list is a sublist. -/
theorem sorted_pair_sublist :
    ∀ (l : List RebuildTask) (a b : RebuildTask), List.Sorted taskKeyLE l →
    a ∈ l → b ∈ l → a.level < b.level → List.Sublist [a, b] l := by
  intro l
  induction l with
  | nil => intro a b _ ha _ _; simp at ha
  | cons h t ih =>
    intro a b hs ha hb hlt
    have hhead := (List.pairwise_cons.mp hs).1
    have htail := (List.pairwise_cons.mp hs).2
    rcases List.mem_cons.mp ha with rfl | hat
    · rcases List.mem_cons.mp hb with rfl | hbt
      · omega
      · exact List.Sublist.cons₂ a (List.singleton_sublist.mpr hbt)
    · rcases List.mem_cons.mp hb with rfl | hbt
      · have := hhead a hat
        rcases this with h1 | ⟨h1, _⟩ <;> omega
      · exact List.Sublist.cons h (ih a b htail hat hbt hlt)

/-!
## Claim theorems
-/

/-- C4: the generated plan contains exactly the packages forward-reachable
from some valid (managed) trigger over the dependency graph; each included
package's level (a natural number, hence non-negative) is its shortest
reachability distance from the nearest trigger, and every trigger that is
a managed package is included at level 0 even if isolated. -/
theorem plan_exactly_reachable (o : PlannerOracles) (triggers : List String)
    (h : o.forgesExists = true) :
    ∃ plan, generatePlan o triggers = some plan ∧
      (∀ pkg l, RebuildTask.mk pkg l ∈ plan.tasks ↔
        isShortestLevel (plannerAdj o) (validTriggers o.managed triggers) pkg l) ∧
      (∀ t, t ∈ triggers → t ∈ o.managed → RebuildTask.mk t 0 ∈ plan.tasks) := by
  refine ⟨⟨sortTasks ((plannerAffected o triggers).map (fun p => RebuildTask.mk p.1 p.2))⟩,
    generatePlan_eq o triggers h, ?_, ?_⟩
  · intro pkg l
    exact mem_planTasks o triggers pkg l
  · intro t ht hm
    rw [mem_planTasks o triggers t 0]
    refine ⟨?_, ?_⟩
    · rw [reachIn, validTriggers, List.mem_filter]
      exact ⟨ht, by simpa using hm⟩
    · intro m hm2
      omega

/-- Witness for C4 at the concrete cyclic two-package project. -/
theorem plan_exactly_reachable_witness :
    oCyc.forgesExists = true ∧
    (∃ plan, generatePlan oCyc ["alpha"] = some plan ∧
      (∀ pkg l, RebuildTask.mk pkg l ∈ plan.tasks ↔
        isShortestLevel (plannerAdj oCyc) (validTriggers oCyc.managed ["alpha"]) pkg l) ∧
      (∀ t, t ∈ ["alpha"] → t ∈ oCyc.managed → RebuildTask.mk t 0 ∈ plan.tasks)) :=
  ⟨rfl, plan_exactly_reachable oCyc ["alpha"] rfl⟩

/-- C6: the impact-analysis traversal terminates on every finite
dependency graph, including cyclic ones: for every edge list, managed set
and trigger request, the seeded BFS loop has drained its queue within
`bfsFuel` iterations (a node is only re-enqueued together with a strict
improvement of the affected map, whose size is bounded by the node pool). -/
theorem bfs_terminates (edges : List (String × String)) (managed triggers : List String) :
    (seededFinal edges managed triggers).2 = [] :=
  (seededFinal_spec edges managed triggers).1

/-- C3 counterexample: in the mutual-cycle project, the plan contains both
endpoints of the edge `beta → alpha`, but `level(beta) = 1` is not below
`level(alpha) = 0`, refuting the claimed strict level increase along every
in-plan edge. -/
theorem edge_levels_counterexample :
    generatePlan oCyc ["alpha"] =
      some ⟨[RebuildTask.mk "alpha" 0, RebuildTask.mk "beta" 1]⟩ ∧
    ("beta", "alpha") ∈ plannerEdges oCyc ∧
    ¬ (∀ p c lp lc, (p, c) ∈ plannerEdges oCyc →
        RebuildTask.mk p lp ∈ [RebuildTask.mk "alpha" 0, RebuildTask.mk "beta" 1] →
        RebuildTask.mk c lc ∈ [RebuildTask.mk "alpha" 0, RebuildTask.mk "beta" 1] →
        lp < lc) := by
  refine ⟨by decide, by decide, ?_⟩
  intro hcl
  have h10 := hcl "beta" "alpha" 1 0 (by decide) (by decide) (by decide)
  omega

/-- C3 (amended): for every dependency edge `p → c` with both endpoints in
the generated plan, `level(c) ≤ level(p) + 1`; and whenever
`level(p) < level(c)`, the task for `p` precedes the task for `c` in the
serialized task order. -/
theorem edge_levels_amended (o : PlannerOracles) (triggers : List String)
    (h : o.forgesExists = true) :
    ∃ plan, generatePlan o triggers = some plan ∧
      ∀ p c lp lc, (p, c) ∈ plannerEdges o →
        RebuildTask.mk p lp ∈ plan.tasks → RebuildTask.mk c lc ∈ plan.tasks →
        lc ≤ lp + 1 ∧
        (lp < lc → List.Sublist [RebuildTask.mk p lp, RebuildTask.mk c lc] plan.tasks) := by
  refine ⟨⟨sortTasks ((plannerAffected o triggers).map (fun q => RebuildTask.mk q.1 q.2))⟩,
    generatePlan_eq o triggers h, ?_⟩
  intro p c lp lc hedge hp hc
  have hsp := (mem_planTasks o triggers p lp).mp hp
  have hsc := (mem_planTasks o triggers c lc).mp hc
  have hreach : c ∈ reachIn (plannerAdj o) (validTriggers o.managed triggers) (lp + 1) := by
    simp only [reachIn, List.mem_flatMap]
    refine ⟨p, hsp.1, ?_⟩
    rw [plannerAdj, mem_consumersOf]
    exact hedge
  constructor
  · by_contra hgt
    exact hsc.2 (lp + 1) (by omega) hreach
  · intro hlt
    exact sorted_pair_sublist _ _ _ (sorted_sortTasks _) hp hc hlt

/-- Witness for C3 (amended) at the concrete cyclic two-package project. -/
theorem edge_levels_amended_witness :
    oCyc.forgesExists = true ∧
    (∃ plan, generatePlan oCyc ["alpha"] = some plan ∧
      ∀ p c lp lc, (p, c) ∈ plannerEdges oCyc →
        RebuildTask.mk p lp ∈ plan.tasks → RebuildTask.mk c lc ∈ plan.tasks →
        lc ≤ lp + 1 ∧
        (lp < lc → List.Sublist [RebuildTask.mk p lp, RebuildTask.mk c lc] plan.tasks)) :=
  ⟨rfl, edge_levels_amended oCyc ["alpha"] rfl⟩

/-- C1 counterexample: with the managed-packages root missing, the planner
process produces no plan but ends with exit status 0, refuting the claimed
non-zero exit. -/
theorem missing_root_counterexample :
    plannerMain oNoForges ["pkg"] = (none, 0) ∧
    ¬ ((plannerMain oNoForges ["pkg"]).2 ≠ 0) :=
  ⟨rfl, fun hne => hne rfl⟩

/-- C1 (amended): if the managed-packages root directory does not exist,
the planner produces no plan file, and the process exits with status 0
(`generate_plan` returns silently and `main` never sets an exit code). -/
theorem missing_root_amended (o : PlannerOracles) (triggers : List String)
    (h : o.forgesExists = false) :
    plannerMain o triggers = (none, 0) := by
  rw [plannerMain, generatePlan, h]
  simp

/-- Witness for C1 (amended) at the concrete forges-less invocation. -/
theorem missing_root_amended_witness :
    oNoForges.forgesExists = false ∧ plannerMain oNoForges ["pkg"] = (none, 0) :=
  ⟨rfl, missing_root_amended oNoForges ["pkg"] rfl⟩

/-!
## Chain-executor helper lemmas
-/

theorem runTasks_cons_reduce (build : String → BuildOutcome) (t : RebuildTask)
    (rest : List JsonVal) :
    runTasks build (taskJson t :: rest) =
      match build t.package with
      | BuildOutcome.ok =>
        ⟨t.package :: (runTasks build rest).invoked, (runTasks build rest).outcome⟩
      | BuildOutcome.failSoft => ⟨[t.package], ChainEnd.retFalse (some t.package)⟩
      | BuildOutcome.failExit => ⟨[t.package], ChainEnd.exited 1⟩ := by
  simp [runTasks, taskJson, jlookup]

theorem runTasks_prefix (build : String → BuildOutcome) :
    ∀ ts : List RebuildTask, ∃ k, (runTasks build (ts.map taskJson)).invoked =
      (ts.map (fun t => t.package)).take k := by
  intro ts
  induction ts with
  | nil => exact ⟨0, rfl⟩
  | cons t ts ih =>
    rw [List.map_cons, runTasks_cons_reduce]
    cases hb : build t.package with
    | ok =>
      obtain ⟨k, hk⟩ := ih
      exact ⟨k + 1, by simp [hk]⟩
    | failSoft => exact ⟨1, by simp⟩
    | failExit => exact ⟨1, by simp⟩

theorem runTasks_all_ok (build : String → BuildOutcome)
    (hok : ∀ p, build p = BuildOutcome.ok) :
    ∀ ts : List RebuildTask,
    runTasks build (ts.map taskJson) = ⟨ts.map (fun t => t.package), ChainEnd.retTrue⟩ := by
  intro ts
  induction ts with
  | nil => rfl
  | cons t ts ih =>
    rw [List.map_cons, runTasks_cons_reduce, hok t.package, ih]
    simp

theorem chainExec_planJson (build : String → BuildOutcome) (plan : RebuildPlan) :
    chainExec build (Except.ok (planJson plan)) = runTasks build (plan.tasks.map taskJson) := by
  simp [chainExec, planJson, jlookup]

/-- C8: the persisted plan is the JSON object
`{"tasks": [{"package": <string>, "level": <non-negative integer>}, ...]}`,
its task array is sorted by `(level ascending, packageId ascending)`, and
the array order is the literal execution order of the chain executor: the
invoked builds always form a prefix of the array, and equal the whole
array when every build succeeds. -/
theorem plan_format_and_execution_order (o : PlannerOracles) (triggers : List String)
    (h : o.forgesExists = true) :
    ∃ plan, generatePlan o triggers = some plan ∧
      planJson plan = JsonVal.jobj [("tasks", JsonVal.jarr (plan.tasks.map (fun t =>
        JsonVal.jobj [("package", JsonVal.jstr t.package),
          ("level", JsonVal.jnum (t.level : Int))])))] ∧
      (∀ t ∈ plan.tasks, 0 ≤ (t.level : Int)) ∧
      List.Sorted taskKeyLE plan.tasks ∧
      (∀ build, ∃ k, (chainExec build (Except.ok (planJson plan))).invoked =
        (plan.tasks.map (fun t => t.package)).take k) ∧
      (∀ build, (∀ p, build p = BuildOutcome.ok) →
        (chainExec build (Except.ok (planJson plan))).invoked =
          plan.tasks.map (fun t => t.package)) := by
  refine ⟨⟨sortTasks ((plannerAffected o triggers).map (fun p => RebuildTask.mk p.1 p.2))⟩,
    generatePlan_eq o triggers h, rfl, ?_, sorted_sortTasks _, ?_, ?_⟩
  · intro t _
    exact Int.natCast_nonneg t.level
  · intro build
    rw [chainExec_planJson]
    exact runTasks_prefix build _
  · intro build hok
    rw [chainExec_planJson, runTasks_all_ok build hok]

/-- Witness for C8 at the concrete cyclic two-package project. -/
theorem plan_format_and_execution_order_witness :
    oCyc.forgesExists = true ∧
    (∃ plan, generatePlan oCyc ["alpha"] = some plan ∧
      planJson plan = JsonVal.jobj [("tasks", JsonVal.jarr (plan.tasks.map (fun t =>
        JsonVal.jobj [("package", JsonVal.jstr t.package),
          ("level", JsonVal.jnum (t.level : Int))])))] ∧
      (∀ t ∈ plan.tasks, 0 ≤ (t.level : Int)) ∧
      List.Sorted taskKeyLE plan.tasks ∧
      (∀ build, ∃ k, (chainExec build (Except.ok (planJson plan))).invoked =
        (plan.tasks.map (fun t => t.package)).take k) ∧
      (∀ build, (∀ p, build p = BuildOutcome.ok) →
        (chainExec build (Except.ok (planJson plan))).invoked =
          plan.tasks.map (fun t => t.package))) :=
  ⟨rfl, plan_format_and_execution_order oCyc ["alpha"] rfl⟩

/-- C10: if the plan file cannot be read or parsed, the chain invokes no
build and reports failure (it returns False); if the document is an object
without a `tasks` key, the plan is treated as empty and the chain reports
success with no build invoked. -/
theorem chain_load_behavior :
    (∀ (build : String → BuildOutcome) (e : String),
      chainExec build (Except.error e) = ⟨[], ChainEnd.retFalse none⟩) ∧
    (∀ (build : String → BuildOutcome) (kvs : List (String × JsonVal)),
      jlookup kvs "tasks" = none →
      chainExec build (Except.ok (JsonVal.jobj kvs)) = ⟨[], ChainEnd.retTrue⟩) := by
  constructor
  · intro build e
    rfl
  · intro build kvs hk
    simp [chainExec, hk, runTasks]

/-- Witness for C10 on a document with no `tasks` key. -/
theorem chain_load_behavior_witness :
    jlookup [("other", JsonVal.jnull)] "tasks" = none ∧
    chainExec buildAllOk (Except.ok (JsonVal.jobj [("other", JsonVal.jnull)])) =
      ⟨[], ChainEnd.retTrue⟩ := by
  refine ⟨rfl, ?_⟩
  exact chain_load_behavior.2 buildAllOk [("other", JsonVal.jnull)] rfl

/-- C2 (evaluation at the failing input): in a three-task chain whose
second task fails softly, the chain stops after the failing task, names it
in the `Chain broken` message, the third task is never invoked — but the
returned False is discarded by `main`, so the process exit status is 0,
not the non-zero status the claim requires. -/
theorem chain_failure_exit_zero :
    chainExec buildFailB (Except.ok (planJson planThree)) =
      ⟨["a", "b"], ChainEnd.retFalse (some "b")⟩ ∧
    lcMainExit (chainExec buildFailB (Except.ok (planJson planThree))) = 0 := by
  constructor <;> rfl

/-!
## Trigger-validation lemmas and C9
-/

theorem seedMapFold_skip_all (managed : List String) :
    ∀ (ts : List String) (A : List (String × Nat)),
    (∀ t ∈ ts, t ∉ managed) → seedMapFold managed A ts = A := by
  intro ts
  induction ts with
  | nil => intro A _; rfl
  | cons t ts ih =>
    intro A hall
    have ht : t ∉ managed := hall t (List.mem_cons_self _ _)
    simp only [seedMapFold, List.foldl_cons, if_neg ht]
    exact ih A (fun x hx => hall x (List.mem_cons_of_mem _ hx))

/-- C9: a requested trigger id that is not a managed package is warned
about and excluded from the seed set without aborting planning; and when
no valid trigger remains, the planner still writes the output plan
`{"tasks": []}`. -/
theorem invalid_triggers_skipped (o : PlannerOracles) (triggers : List String)
    (h : o.forgesExists = true) :
    (∀ pid ∈ triggers, pid ∉ o.managed →
      pid ∈ (plannerSeed o triggers).2.2 ∧ lookupA (plannerSeed o triggers).1 pid = none) ∧
    (∀ pid ∈ triggers, pid ∈ o.managed →
      lookupA (plannerSeed o triggers).1 pid = some 0) ∧
    ((∀ pid ∈ triggers, pid ∉ o.managed) →
      generatePlan o triggers = some ⟨[]⟩ ∧
      (generatePlan o triggers).map planJson =
        some (JsonVal.jobj [("tasks", JsonVal.jarr [])])) := by
  have hseed : plannerSeed o triggers =
      (seedMapFold o.managed [] triggers,
       (validTriggers o.managed triggers).map (fun t => (t, 0)),
       triggers.filter (fun t => !decide (t ∈ o.managed))) := by
    have hc := seed_components o.managed triggers [] [] []
    simpa [plannerSeed, seedTriggers, validTriggers] using hc
  refine ⟨?_, ?_, ?_⟩
  · intro pid hmem hnot
    constructor
    · rw [hseed]
      simp only [List.mem_filter]
      exact ⟨hmem, by simpa using hnot⟩
    · rw [hseed]
      cases hlk : lookupA (seedMapFold o.managed [] triggers) pid with
      | none => rfl
      | some l =>
        rcases seedMapFold_lookup_inv o.managed triggers [] pid l hlk with hbad | ⟨_, _, hman⟩
        · simp [lookupA] at hbad
        · exact absurd hman hnot
  · intro pid hmem hman
    rw [hseed]
    exact seedMapFold_lookup_zero o.managed triggers [] pid (Or.inr ⟨hmem, hman⟩)
  · intro hall
    have hvalid : validTriggers o.managed triggers = [] := by
      rw [validTriggers, List.filter_eq_nil_iff]
      intro t ht
      simpa using hall t ht
    have hA0 : seedMapFold o.managed [] triggers = [] :=
      seedMapFold_skip_all o.managed triggers [] hall
    have haff : plannerAffected o triggers = [] := by
      rw [plannerAffected, seededFinal]
      have hst : seedTriggers o.managed triggers =
          (seedMapFold o.managed [] triggers,
           (validTriggers o.managed triggers).map (fun t => (t, 0)),
           triggers.filter (fun t => !decide (t ∈ o.managed))) := by
        have hc := seed_components o.managed triggers [] [] []
        simpa [seedTriggers, validTriggers] using hc
      rw [hst, hvalid, hA0]
      simp only [List.map_nil]
      rw [bfsRun_nil_queue]
    have hplan : generatePlan o triggers = some ⟨[]⟩ := by
      rw [generatePlan_eq o triggers h, haff]
      rfl
    exact ⟨hplan, by rw [hplan]; rfl⟩

/-- Witness for C9 with the unknown trigger `ghost` on the cyclic project. -/
theorem invalid_triggers_skipped_witness :
    oCyc.forgesExists = true ∧
    ((∀ pid ∈ ["ghost"], pid ∉ oCyc.managed →
      pid ∈ (plannerSeed oCyc ["ghost"]).2.2 ∧
      lookupA (plannerSeed oCyc ["ghost"]).1 pid = none) ∧
    (∀ pid ∈ ["ghost"], pid ∈ oCyc.managed →
      lookupA (plannerSeed oCyc ["ghost"]).1 pid = some 0) ∧
    ((∀ pid ∈ ["ghost"], pid ∉ oCyc.managed) →
      generatePlan oCyc ["ghost"] = some ⟨[]⟩ ∧
      (generatePlan oCyc ["ghost"]).map planJson =
        some (JsonVal.jobj [("tasks", JsonVal.jarr [])]))) :=
  ⟨rfl, invalid_triggers_skipped oCyc ["ghost"] rfl⟩

/-!
## Provider-resolution lemmas and C5
-/

theorem lookupS_insertS_self (m : List (String × String)) (k v : String) :
    lookupS (insertS m k v) k = some v := by
  induction m with
  | nil => simp [insertS, lookupS]
  | cons hd tl ih =>
    by_cases h : k = hd.1
    · simp [insertS, lookupS, h]
    · simp only [insertS, lookupS]
      rw [if_neg h]
      simp only [lookupS]
      rw [if_neg h]
      exact ih

/-- C5 counterexample: a capability token with no local and no external
provider is resolved without being cached, so a second resolution of the
same token within the same session queries the external source again
(the third component records whether the external repositories were
queried). -/
theorem resolver_cache_counterexample :
    (resolveProvider [] extNone [] "libfoo").2.2 = true ∧
    (resolveProvider [] extNone ((resolveProvider [] extNone [] "libfoo").2.1) "libfoo").2.2 =
      true :=
  ⟨rfl, rfl⟩

/-- C5 (amended): provider resolution consults the memoization cache
first, then the local capability index — whose answer wins over any
external answer — and only then the external resolver; the cache is
populated on the first successful resolution of a token, so the external
source is never queried again for a capability token once some provider
has been found for it; tokens that fail to resolve are not cached. -/
theorem resolver_policy_amended (localMap : List (String × String))
    (ext : String → Option String) (cache : List (String × String)) (cap : String) :
    (∀ v, lookupS cache cap = some v →
      resolveProvider localMap ext cache cap = (some v, cache, false)) ∧
    (lookupS cache cap = none → ∀ pid, lookupS localMap cap = some pid →
      resolveProvider localMap ext cache cap = (some pid, insertS cache cap pid, false)) ∧
    (lookupS cache cap = none → lookupS localMap cap = none → ∀ name, ext cap = some name →
      resolveProvider localMap ext cache cap = (some name, insertS cache cap name, true)) ∧
    (lookupS cache cap = none → lookupS localMap cap = none → ext cap = none →
      resolveProvider localMap ext cache cap = (none, cache, true)) ∧
    (∀ r, (resolveProvider localMap ext cache cap).1 = some r →
      resolveProvider localMap ext ((resolveProvider localMap ext cache cap).2.1) cap =
        (some r, (resolveProvider localMap ext cache cap).2.1, false)) := by
  refine ⟨?_, ?_, ?_, ?_, ?_⟩
  · intro v hv
    simp [resolveProvider, hv]
  · intro hc pid hp
    simp [resolveProvider, hc, hp]
  · intro hc hp name he
    simp [resolveProvider, hc, hp, he]
  · intro hc hp he
    simp [resolveProvider, hc, hp, he]
  · intro r hr
    cases hc : lookupS cache cap with
    | some v =>
      simp only [resolveProvider, hc] at hr ⊢
      injection hr with hr
      rw [hr]
    | none =>
      cases hp : lookupS localMap cap with
      | some pid =>
        simp only [resolveProvider, hc, hp] at hr ⊢
        injection hr with hr
        rw [lookupS_insertS_self]
        rw [hr]
      | none =>
        cases he : ext cap with
        | some name =>
          simp only [resolveProvider, hc, hp, he] at hr ⊢
          injection hr with hr
          rw [lookupS_insertS_self]
          rw [hr]
        | none =>
          simp [resolveProvider, hc, hp, he] at hr

/-- Witness for C5 (amended): a locally provided capability resolves from
the index on a cold cache, is cached, and the external source is not
queried. -/
theorem resolver_policy_amended_witness :
    lookupS [] "libfoo" = none ∧
    lookupS [("libfoo", "alpha")] "libfoo" = some "alpha" ∧
    resolveProvider [("libfoo", "alpha")] extNone [] "libfoo" =
      (some "alpha", insertS [] "libfoo" "alpha", false) :=
  ⟨rfl, rfl,
    (resolver_policy_amended [("libfoo", "alpha")] extNone [] "libfoo").2.1 rfl "alpha" rfl⟩

/-!
## Scan-robustness lemmas and C7
-/

theorem scanStep_fst_congr (o : PlannerOracles) (pkg : String)
    (st st' : List (String × String) × List String) (h : st.1 = st'.1) :
    (scanStep o st pkg).1 = (scanStep o st' pkg).1 := by
  by_cases hs : o.hasSpec pkg = false
  · simp [scanStep, hs, h]
  · simp only [scanStep, if_neg hs]
    cases o.namesQuery pkg with
    | error e => simpa using h
    | ok names =>
      cases o.providesQuery pkg with
      | error e => simp [h]
      | ok provs => simp [h]

theorem scanFold_fst_congr (o : PlannerOracles) :
    ∀ (ts : List String) (st st' : List (String × String) × List String),
    st.1 = st'.1 → (ts.foldl (scanStep o) st).1 = (ts.foldl (scanStep o) st').1 := by
  intro ts
  induction ts with
  | nil => intro st st' h; exact h
  | cons t ts ih =>
    intro st st' h
    simp only [List.foldl_cons]
    exact ih _ _ (scanStep_fst_congr o t st st' h)

theorem scanFold_warns_mono (o : PlannerOracles) :
    ∀ (ts : List String) (st : List (String × String) × List String) (p : String),
    p ∈ st.2 → p ∈ (ts.foldl (scanStep o) st).2 := by
  intro ts
  induction ts with
  | nil => intro st p hp; exact hp
  | cons t ts ih =>
    intro st p hp
    simp only [List.foldl_cons]
    apply ih
    by_cases hs : o.hasSpec t = false
    · simpa [scanStep, hs] using hp
    · simp only [scanStep, if_neg hs]
      cases o.namesQuery t with
      | error e => simp only; exact List.mem_append_left _ hp
      | ok names =>
        cases o.providesQuery t with
        | error e => simp only; exact List.mem_append_left _ hp
        | ok provs => simpa using hp

/-- C7: a package whose descriptor fails to parse is warned about, its
capability contribution is skipped (the registry map is the same as if the
package were absent from the listing), its requirement contribution is
empty (so it adds no dependency edges as a consumer either), and the scan
continues with the remaining packages — it never aborts. -/
theorem parse_failure_skipped (o : PlannerOracles) (p e1 e2 : String)
    (l1 l2 : List String)
    (hs : o.hasSpec p = true)
    (hn : o.namesQuery p = Except.error e1)
    (hb : o.brQuery p = Except.error e2) :
    ((l1 ++ p :: l2).foldl (scanStep o) ([], [])).1 =
      ((l1 ++ l2).foldl (scanStep o) ([], [])).1 ∧
    p ∈ ((l1 ++ p :: l2).foldl (scanStep o) ([], [])).2 ∧
    specBuildRequires o p = [] ∧
    (∀ (m : List (String × String)) (st : List (String × String) × List (String × String)),
      (l1 ++ p :: l2).foldl (graphStepPkg o m) st = (l1 ++ l2).foldl (graphStepPkg o m) st) := by
  have hstep : ∀ st : List (String × String) × List String,
      scanStep o st p = (st.1, st.2 ++ [p]) := by
    intro st
    have hs2 : ¬ o.hasSpec p = false := by simp [hs]
    simp [scanStep, hs2, hn]
  have hbr : specBuildRequires o p = [] := by
    rw [specBuildRequires, hb]
  refine ⟨?_, ?_, hbr, ?_⟩
  · rw [List.foldl_append, List.foldl_append, List.foldl_cons, hstep]
    exact scanFold_fst_congr o l2 _ _ rfl
  · rw [List.foldl_append, List.foldl_cons, hstep]
    apply scanFold_warns_mono
    exact List.mem_append_right _ (List.mem_singleton.mpr rfl)
  · intro m st
    have hgstep : ∀ st2 : List (String × String) × List (String × String),
        graphStepPkg o m st2 p = st2 := by
      intro st2
      by_cases hsf : o.hasSpec p = false
      · simp [graphStepPkg, hsf]
      · simp [graphStepPkg, hsf, hbr]
    rw [List.foldl_append, List.foldl_append, List.foldl_cons, hgstep]

/-- Witness for C7 on the three-package project with a malformed middle
package. -/
theorem parse_failure_skipped_witness :
    oParseFail.hasSpec "mid" = true ∧
    oParseFail.namesQuery "mid" = Except.error "parse error" ∧
    oParseFail.brQuery "mid" = Except.error "parse error" ∧
    ((["bot"] ++ "mid" :: ["top"]).foldl (scanStep oParseFail) ([], [])).1 =
      ((["bot"] ++ ["top"]).foldl (scanStep oParseFail) ([], [])).1 ∧
    "mid" ∈ ((["bot"] ++ "mid" :: ["top"]).foldl (scanStep oParseFail) ([], [])).2 ∧
    specBuildRequires oParseFail "mid" = [] ∧
    (∀ (m : List (String × String)) (st : List (String × String) × List (String × String)),
      (["bot"] ++ "mid" :: ["top"]).foldl (graphStepPkg oParseFail m) st =
        (["bot"] ++ ["top"]).foldl (graphStepPkg oParseFail m) st) := by
  have h := parse_failure_skipped oParseFail "mid" "parse error" "parse error"
    ["bot"] ["top"] rfl rfl rfl
  exact ⟨rfl, rfl, rfl, h.1, h.2.1, h.2.2.1, h.2.2.2⟩

end LocalCopr

